import Mathlib

/-!
Verification of the cal.ai repository: shallow embedding of the text
normalizer, knowledge store and fuzzy retrieval pipeline of
src/retrieval.py, and of the per-user nutrition ledger of
src/telegram_calorie_bot.py, together with theorems settling the spec
claims. JSON numbers are modelled as exact rationals; the external
rapidfuzz token_set_ratio metric is a parameter of the retrieval
pipeline, constrained only by its documented 0..100 range.
-/

namespace CalAi

/-! ### Text normalizer (src/retrieval.py, normalize_text)

The Python code is
  s = s.lower()
  s = re.sub(pattern1, " ", s)   -- pattern1 matches runs outside [a-z0-9 whitespace]
  s = re.sub(pattern2, " ", s)   -- pattern2 matches whitespace runs
  return s.strip()
modelled character-wise over the ASCII whitespace class. -/

/-- Characters of the regex class [a-z0-9]. -/
def isLowerDigit (c : Char) : Bool :=
  (97 ≤ c.toNat && c.toNat ≤ 122) || (48 ≤ c.toNat && c.toNat ≤ 57)

/-- ASCII whitespace characters, the whitespace class of the Python regexes. -/
def isPyWs (c : Char) : Bool :=
  c.toNat = 32 || c.toNat = 9 || c.toNat = 10 || c.toNat = 13 || c.toNat = 11 || c.toNat = 12

/-- Characters kept by the first substitution: lowercase letters, digits, whitespace. -/
def keepChar (c : Char) : Bool := isLowerDigit c || isPyWs c

/-- Replace every maximal run of characters satisfying p by a single space,
the effect of re.sub with a one-or-more character-class pattern. The Boolean
flag records whether the current position is inside a run whose replacement
space has already been emitted. -/
def subRunsGo (p : Char → Bool) : Bool → List Char → List Char
  | _, [] => []
  | inRun, c :: cs =>
    if p c then
      if inRun then subRunsGo p true cs
      else ' ' :: subRunsGo p true cs
    else c :: subRunsGo p false cs

/-- Replace every maximal run of characters satisfying p by a single space. -/
def subRuns (p : Char → Bool) (l : List Char) : List Char := subRunsGo p false l

/-- Remove the trailing run of characters satisfying p. -/
def dropTrail (p : Char → Bool) : List Char → List Char
  | [] => []
  | c :: cs =>
    match dropTrail p cs with
    | [] => if p c then [] else [c]
    | d :: ds => c :: d :: ds

/-- Python str.strip on a character list: drop leading and trailing whitespace. -/
def pyStripList (l : List Char) : List Char := dropTrail isPyWs (l.dropWhile isPyWs)

/-- Python str.strip. -/
def pyStrip (s : String) : String := ⟨pyStripList s.data⟩

/-- normalize_text from src/retrieval.py: lowercase, replace each run of
characters outside [a-z0-9 whitespace] by one space, collapse whitespace
runs to single spaces, strip. -/
def normalize_text (s : String) : String :=
  ⟨pyStripList (subRuns isPyWs (subRuns (fun c => !keepChar c) (s.data.map Char.toLower)))⟩

/-! Invariant machinery for the idempotence proof. -/

/-- No two adjacent characters both satisfy p. -/
def adjOk (p : Char → Bool) : List Char → Bool
  | [] => true
  | [_] => true
  | a :: b :: cs => !(p a && p b) && adjOk p (b :: cs)

/-- The first character, if any, does not satisfy p. -/
def headFails (p : Char → Bool) : List Char → Bool
  | [] => true
  | c :: _ => !p c

/-- The last character, if any, does not satisfy p. -/
def lastFails (p : Char → Bool) : List Char → Bool
  | [] => true
  | [c] => !p c
  | _ :: c :: cs => lastFails p (c :: cs)

theorem beq_false (b : Bool) (h : ¬ b = true) : b = false := by
  cases b with
  | false => rfl
  | true => exact absurd rfl h

theorem dropTrail_cons (p : Char → Bool) (d : Char) (ds : List Char) :
    dropTrail p (d :: ds) = match dropTrail p ds with
      | [] => if p d then [] else [d]
      | e :: es => d :: e :: es := rfl

theorem subRunsGo_cons (p : Char → Bool) (inRun : Bool) (c : Char) (cs : List Char) :
    subRunsGo p inRun (c :: cs) =
      if p c then
        (if inRun then subRunsGo p true cs else ' ' :: subRunsGo p true cs)
      else c :: subRunsGo p false cs := rfl

theorem adjOk_cons_cons (p : Char → Bool) (a b : Char) (l : List Char) :
    adjOk p (a :: b :: l) = (!(p a && p b) && adjOk p (b :: l)) := rfl

theorem lastFails_cons_cons (p : Char → Bool) (a b : Char) (l : List Char) :
    lastFails p (a :: b :: l) = lastFails p (b :: l) := rfl

theorem adjOk_tail (p : Char → Bool) (a : Char) (l : List Char)
    (h : adjOk p (a :: l) = true) : adjOk p l = true := by
  cases l with
  | nil => rfl
  | cons b bs =>
    rw [adjOk_cons_cons] at h
    simp only [Bool.and_eq_true] at h
    exact h.2

theorem adjOk_cons_of (p : Char → Bool) (a : Char) (l : List Char)
    (h1 : adjOk p l = true) (h2 : p a = false ∨ headFails p l = true) :
    adjOk p (a :: l) = true := by
  cases l with
  | nil => rfl
  | cons b bs =>
    rw [adjOk_cons_cons]
    simp only [Bool.and_eq_true, h1, and_true]
    rcases h2 with h | h
    · simp [h]
    · simp [headFails] at h
      simp [h]

theorem mem_subRunsGo (p : Char → Bool) (b : Bool) (l : List Char) (c : Char)
    (h : c ∈ subRunsGo p b l) : c = ' ' ∨ (c ∈ l ∧ p c = false) := by
  induction l generalizing b with
  | nil => simp [subRunsGo] at h
  | cons d ds ih =>
    by_cases hd : p d
    · cases b with
      | true =>
        simp only [subRunsGo, hd, if_true] at h
        rcases ih true h with h1 | ⟨h2, h3⟩
        · exact Or.inl h1
        · exact Or.inr ⟨List.mem_cons_of_mem _ h2, h3⟩
      | false =>
        simp only [subRunsGo, hd, if_true] at h
        rcases List.mem_cons.mp h with h1 | h1
        · exact Or.inl h1
        · rcases ih true h1 with h2 | ⟨h3, h4⟩
          · exact Or.inl h2
          · exact Or.inr ⟨List.mem_cons_of_mem _ h3, h4⟩
    · simp only [subRunsGo, hd, if_false] at h
      rcases List.mem_cons.mp h with h1 | h1
      · subst h1
        exact Or.inr ⟨List.mem_cons_self _ _, beq_false _ hd⟩
      · rcases ih false h1 with h2 | ⟨h3, h4⟩
        · exact Or.inl h2
        · exact Or.inr ⟨List.mem_cons_of_mem _ h3, h4⟩

theorem subRunsGo_adjOk (p : Char → Bool) (l : List Char) :
    ∀ b : Bool, adjOk p (subRunsGo p b l) = true ∧
      (b = true → headFails p (subRunsGo p b l) = true) := by
  induction l with
  | nil => intro b; exact ⟨rfl, fun _ => rfl⟩
  | cons d ds ih =>
    intro b
    by_cases hd : p d
    · cases b with
      | true =>
        simp only [subRunsGo, hd, if_true]
        exact ⟨(ih true).1, fun _ => (ih true).2 rfl⟩
      | false =>
        simp only [subRunsGo, hd, if_true]
        refine ⟨?_, fun h => by cases h⟩
        exact adjOk_cons_of p ' ' _ (ih true).1 (Or.inr ((ih true).2 rfl))
    · simp only [subRunsGo, hd, if_false]
      refine ⟨?_, fun _ => by simp [headFails, hd]⟩
      exact adjOk_cons_of p d _ (ih false).1 (Or.inl (beq_false _ hd))

theorem subRunsGo_id (p : Char → Bool) (l : List Char)
    (hsp : ∀ c ∈ l, p c = true → c = ' ')
    (hadj : adjOk p l = true) :
    subRunsGo p false l = l ∧ (headFails p l = true → subRunsGo p true l = l) := by
  induction l with
  | nil => exact ⟨rfl, fun _ => rfl⟩
  | cons d ds ih =>
    have hsp' : ∀ c ∈ ds, p c = true → c = ' ' :=
      fun c hc => hsp c (List.mem_cons_of_mem _ hc)
    have IH := ih hsp' (adjOk_tail p d ds hadj)
    by_cases hd : p d = true
    · have hds : headFails p ds = true := by
        cases ds with
        | nil => rfl
        | cons e es =>
          rw [adjOk_cons_cons] at hadj
          simp only [Bool.and_eq_true] at hadj
          have h1 := hadj.1
          simp [hd] at h1
          simp [headFails, h1]
      constructor
      · have h2 := IH.2 hds
        have hdsp : d = ' ' := hsp d (List.mem_cons_self _ _) hd
        show subRunsGo p false (d :: ds) = d :: ds
        rw [subRunsGo_cons, if_pos hd, if_neg Bool.false_ne_true, h2, hdsp]
      · intro hcontra
        simp [headFails, hd] at hcontra
    · have hd' : p d = false := beq_false _ hd
      refine ⟨?_, fun _ => ?_⟩
      · simp [subRunsGo, hd', IH.1]
      · simp [subRunsGo, hd', IH.1]

theorem subRuns_id_of_no_p (p : Char → Bool) (l : List Char)
    (h : ∀ c ∈ l, p c = false) : subRuns p l = l := by
  induction l with
  | nil => rfl
  | cons d ds ih =>
    have hd : p d = false := h d (List.mem_cons_self _ _)
    have ih' := ih (fun c hc => h c (List.mem_cons_of_mem _ hc))
    simp only [subRuns] at ih' ⊢
    simp [subRunsGo, hd, ih']

theorem mem_dropWhile (p : Char → Bool) (l : List Char) (c : Char)
    (h : c ∈ l.dropWhile p) : c ∈ l := by
  induction l with
  | nil => simp [List.dropWhile] at h
  | cons d ds ih =>
    by_cases hd : p d
    · simp only [List.dropWhile, hd] at h
      exact List.mem_cons_of_mem _ (ih h)
    · simp only [List.dropWhile, hd] at h
      exact h

theorem adjOk_dropWhile (p q : Char → Bool) (l : List Char)
    (h : adjOk p l = true) : adjOk p (l.dropWhile q) = true := by
  induction l with
  | nil => rfl
  | cons d ds ih =>
    by_cases hd : q d
    · simp only [List.dropWhile, hd]
      exact ih (adjOk_tail p d ds h)
    · simp only [List.dropWhile, hd]
      exact h

theorem headFails_dropWhile (p : Char → Bool) (l : List Char) :
    headFails p (l.dropWhile p) = true := by
  induction l with
  | nil => rfl
  | cons d ds ih =>
    by_cases hd : p d
    · simp only [List.dropWhile, hd]; exact ih
    · simp only [List.dropWhile, hd]; simp [headFails, hd]

theorem dropWhile_id (p : Char → Bool) (l : List Char)
    (h : headFails p l = true) : l.dropWhile p = l := by
  cases l with
  | nil => rfl
  | cons d ds =>
    simp [headFails] at h
    simp [List.dropWhile, h]

theorem mem_dropTrail (p : Char → Bool) (l : List Char) (c : Char)
    (h : c ∈ dropTrail p l) : c ∈ l := by
  induction l with
  | nil => simp [dropTrail] at h
  | cons d ds ih =>
    rw [dropTrail_cons] at h
    cases hds : dropTrail p ds with
    | nil =>
      rw [hds] at h
      by_cases hd : p d
      · simp [hd] at h
      · simp [hd] at h
        simp [h]
    | cons e es =>
      rw [hds] at h
      rcases List.mem_cons.mp h with h1 | h1
      · simp [h1]
      · exact List.mem_cons_of_mem _ (ih (by rw [hds]; exact h1))

theorem dropTrail_head (p : Char → Bool) (l : List Char) (d : Char) (ds : List Char)
    (h : dropTrail p l = d :: ds) : ∃ t, l = d :: t := by
  cases l with
  | nil => simp [dropTrail] at h
  | cons x xs =>
    rw [dropTrail_cons] at h
    cases hxs : dropTrail p xs with
    | nil =>
      rw [hxs] at h
      by_cases hx : p x
      · simp [hx] at h
      · simp [hx] at h
        exact ⟨xs, by rw [h.1]⟩
    | cons e es =>
      rw [hxs] at h
      simp only [List.cons.injEq] at h
      exact ⟨xs, by rw [h.1]⟩

theorem headFails_dropTrail (p q : Char → Bool) (l : List Char)
    (h : headFails q l = true) : headFails q (dropTrail p l) = true := by
  cases l with
  | nil => rfl
  | cons d ds =>
    rw [dropTrail_cons]
    cases dropTrail p ds with
    | nil =>
      by_cases hd : p d = true
      · simp [hd, headFails]
      · simp only [if_neg hd]
        exact h
    | cons e es => exact h

theorem adjOk_dropTrail (p q : Char → Bool) (l : List Char)
    (h : adjOk q l = true) : adjOk q (dropTrail p l) = true := by
  induction l with
  | nil => rfl
  | cons d ds ih =>
    have IH := ih (adjOk_tail q d ds h)
    rw [dropTrail_cons]
    cases hds : dropTrail p ds with
    | nil =>
      by_cases hd : p d = true
      · simp [hd, adjOk]
      · simp only [if_neg hd]
        rfl
    | cons e es =>
      rw [hds] at IH
      obtain ⟨t, ht⟩ := dropTrail_head p ds e es hds
      rw [ht] at h
      rw [adjOk_cons_cons] at h
      simp only [Bool.and_eq_true] at h
      show adjOk q (d :: e :: es) = true
      rw [adjOk_cons_cons, h.1, IH]
      rfl

theorem lastFails_dropTrail (p : Char → Bool) (l : List Char) :
    lastFails p (dropTrail p l) = true := by
  induction l with
  | nil => rfl
  | cons d ds ih =>
    rw [dropTrail_cons]
    cases hds : dropTrail p ds with
    | nil =>
      by_cases hd : p d = true
      · simp [hd, lastFails]
      · have hd' : p d = false := beq_false _ hd
        simp [if_neg hd, lastFails, hd']
    | cons e es =>
      rw [hds] at ih
      show lastFails p (d :: e :: es) = true
      rw [lastFails_cons_cons]
      exact ih

theorem dropTrail_id (p : Char → Bool) (l : List Char)
    (h : lastFails p l = true) : dropTrail p l = l := by
  induction l with
  | nil => rfl
  | cons d ds ih =>
    cases ds with
    | nil =>
      have hd' : p d = false := by simpa [lastFails] using h
      simp [dropTrail, hd']
    | cons e es =>
      rw [lastFails_cons_cons] at h
      have h2 := ih h
      rw [dropTrail_cons, h2]

theorem map_id_of_fixed (f : Char → Char) (l : List Char)
    (h : ∀ c ∈ l, f c = c) : l.map f = l := by
  induction l with
  | nil => rfl
  | cons d ds ih =>
    simp only [List.map_cons, h d (List.mem_cons_self _ _),
      ih (fun c hc => h c (List.mem_cons_of_mem _ hc))]

theorem toLower_fixed (c : Char) (h : isLowerDigit c = true ∨ c = ' ') :
    Char.toLower c = c := by
  rcases h with h | h
  · have hn : ¬(c.toNat ≥ 65 ∧ c.toNat ≤ 90) := by
      simp [isLowerDigit] at h
      omega
    simp [Char.toLower, hn]
  · subst h
    decide

theorem lowerDigit_not_ws (c : Char) (h : isLowerDigit c = true) : isPyWs c = false := by
  simp [isLowerDigit] at h
  simp [isPyWs]
  omega

theorem space_is_ws : isPyWs ' ' = true := by decide

theorem space_keepChar : keepChar ' ' = true := by decide

/-- Every character of the normalizer output is a lowercase letter, a digit,
or a single space. -/
theorem mem_normalize (s : String) (c : Char) (h : c ∈ (normalize_text s).data) :
    isLowerDigit c = true ∨ c = ' ' := by
  simp only [normalize_text] at h
  have h1 : c ∈ subRuns isPyWs (subRuns (fun c => !keepChar c) (s.data.map Char.toLower)) :=
    mem_dropWhile _ _ _ (mem_dropTrail _ _ _ h)
  rcases mem_subRunsGo _ _ _ _ h1 with h2 | ⟨h2, h3⟩
  · exact Or.inr h2
  · rcases mem_subRunsGo _ _ _ _ h2 with h4 | ⟨_, h5⟩
    · subst h4
      rw [space_is_ws] at h3
      cases h3
    · by_cases h6 : isLowerDigit c = true
      · exact Or.inl h6
      · exfalso
        have h6' : isLowerDigit c = false := beq_false _ h6
        have h7 : keepChar c = true := by
          cases hkc : keepChar c
          · rw [hkc] at h5; cases h5
          · rfl
        have h8 : isPyWs c = true := by
          have := h7
          unfold keepChar at this
          rcases Bool.or_eq_true_iff.mp this with h9 | h9
          · rw [h6'] at h9; cases h9
          · exact h9
        rw [h8] at h3
        cases h3

/-- C8 core fact: normalize_text is idempotent. -/
theorem normalize_text_idem (s : String) :
    normalize_text (normalize_text s) = normalize_text s := by
  set out := (normalize_text s).data with hout
  have hmem : ∀ c ∈ out, isLowerDigit c = true ∨ c = ' ' :=
    fun c hc => mem_normalize s c hc
  have hadj : adjOk isPyWs out = true := by
    rw [hout]
    simp only [normalize_text, pyStripList]
    exact adjOk_dropTrail _ _ _
      (adjOk_dropWhile _ _ _ (subRunsGo_adjOk _ _ false).1)
  have hhead : headFails isPyWs out = true := by
    rw [hout]
    simp only [normalize_text, pyStripList]
    exact headFails_dropTrail _ _ _ (headFails_dropWhile _ _)
  have hlast : lastFails isPyWs out = true := by
    rw [hout]
    simp only [normalize_text, pyStripList]
    exact lastFails_dropTrail _ _
  have step1 : out.map Char.toLower = out :=
    map_id_of_fixed _ _ (fun c hc => toLower_fixed c (hmem c hc))
  have step2 : subRuns (fun c => !keepChar c) out = out := by
    refine subRuns_id_of_no_p _ _ (fun c hc => ?_)
    rcases hmem c hc with h | h
    · simp [keepChar, h]
    · subst h; simp [space_keepChar]
  have step3 : subRuns isPyWs out = out := by
    refine (subRunsGo_id isPyWs out (fun c hc hp => ?_) hadj).1
    rcases hmem c hc with h | h
    · rw [lowerDigit_not_ws c h] at hp; cases hp
    · exact h
  have step4 : pyStripList out = out := by
    simp only [pyStripList, dropWhile_id _ _ hhead, dropTrail_id _ _ hlast]
  show (⟨pyStripList (subRuns isPyWs (subRuns (fun c => !keepChar c)
    ((normalize_text s).data.map Char.toLower)))⟩ : String) = normalize_text s
  rw [← hout, step1, step2, step3, step4, hout]

/-! ### Knowledge store (src/retrieval.py)

An entry persists as one JSON line with fields id and text; the in-memory
collection is the list of entries in file order. -/

structure KBEntry where
  id : Nat
  text : String
deriving DecidableEq

/-- Derived name of an entry, computed by build_kb_index: the substring of
text before the first comma, stripped. -/
def kbName (e : KBEntry) : String :=
  ⟨pyStripList (e.text.data.takeWhile (fun c => c != ','))⟩

/-- Largest id in the store, 0 when empty: max of entry ids with default 0. -/
def maxId (entries : List KBEntry) : Nat :=
  entries.foldr (fun e m => max e.id m) 0

/-- add_kb_entry: assign max-plus-one id, strip the text, append, persist.
Returns the pair of the assigned id and the new durable collection. -/
def add_kb_entry (entries : List KBEntry) (text : String) : Nat × List KBEntry :=
  let next := maxId entries + 1
  (next, entries ++ [⟨next, pyStrip text⟩])

/-- delete_kb_entry: drop entries with the given id; report whether any
entry was removed. -/
def delete_kb_entry (entries : List KBEntry) (eid : Nat) : Bool × List KBEntry :=
  let ne := entries.filter (fun e => e.id != eid)
  if ne.length = entries.length then (false, entries) else (true, ne)

/-! ### Cache timing model for the knowledge store (C4)

State of the process: the durable file contents and the lru_cache slot of
load_kb_entries_cached. The atomic effects of the code are cache_clear,
a direct file load, and the file write of save_kb_entries; a cached read
returns the cached snapshot or loads and caches the file. -/

structure KBState where
  file : List KBEntry
  cache : Option (List KBEntry)
deriving DecidableEq

inductive KBEvent
  | cacheClear
  | fileRead
  | fileWrite
deriving DecidableEq

/-- Order of the atomic effects inside add_kb_entry (retrieval.py lines
24, 25, 29): the cache is cleared first, then the file is read, then the
new collection is written. -/
def add_kb_events : List KBEvent :=
  [KBEvent.cacheClear, KBEvent.fileRead, KBEvent.fileWrite]

/-- Order of the atomic effects inside delete_kb_entry (retrieval.py lines
34, 35, 39). -/
def delete_kb_events : List KBEvent :=
  [KBEvent.cacheClear, KBEvent.fileRead, KBEvent.fileWrite]

/-- Effect of load_kb_entries_cached.cache_clear(). -/
def stepClear (s : KBState) : KBState := ⟨s.file, none⟩

/-- Effect of save_kb_entries. -/
def stepWrite (l : List KBEntry) (s : KBState) : KBState := ⟨l, s.cache⟩

/-- Effect of load_kb_entries_cached: serve the cached snapshot if present,
otherwise load the file and cache it. -/
def cachedRead (s : KBState) : List KBEntry × KBState :=
  match s.cache with
  | some l => (l, s)
  | none => (s.file, ⟨s.file, some s.file⟩)

/-! ### Fuzzy ranker (src/retrieval.py, retrieve_kb_context)

The external rapidfuzz token_set_ratio is a parameter fz; the code truncates
the float score sum with int(), modelled by fz being natural-valued. -/

/-- Python str.split() on a normalized string (whose only whitespace is
single spaces): maximal nonempty runs of non-space characters. -/
def splitWsGo (cur : List Char) : List Char → List (List Char)
  | [] => if cur.isEmpty then [] else [cur.reverse]
  | c :: cs =>
    if c = ' ' then
      (if cur.isEmpty then splitWsGo [] cs else cur.reverse :: splitWsGo [] cs)
    else splitWsGo (c :: cur) cs

def splitWs (l : List Char) : List String :=
  (splitWsGo [] l).map (fun w => ⟨w⟩)

/-- Python set() of the whitespace-split tokens, as a duplicate-free list. -/
def tokenSet (s : String) : List String := (splitWs s.data).dedup

/-- Size of the intersection of the two token sets. -/
def overlapCount (qn nn : String) : Nat :=
  ((tokenSet qn).filter (fun t => decide (t ∈ tokenSet nn))).length

/-- Score of one entry: fuzzy score plus the overlap bonus min(overlap*5, 15). -/
def scoreEntry (fz : String → String → Nat) (qn nn : String) : Nat :=
  fz qn nn + min (overlapCount qn nn * 5) 15

/-- Scoring loop of retrieve_kb_context: entries with an empty normalized
name are skipped. -/
def kbScores (fz : String → String → Nat) (entries : List KBEntry) (qn : String) :
    List (Nat × KBEntry) :=
  entries.filterMap (fun e =>
    if normalize_text (kbName e) = "" then none
    else some (scoreEntry fz qn (normalize_text (kbName e)), e))

/-- Sort key of the Python sort: (score, length of the raw name). -/
def scoreKey (t : Nat × KBEntry) : Nat × Nat := (t.1, (kbName t.2).length)

/-- Lexicographic order on sort keys, the Python tuple order. -/
def keyLe (a b : Nat × Nat) : Prop := a.1 < b.1 ∨ (a.1 = b.1 ∧ a.2 ≤ b.2)

instance keyLe.instDec : ∀ a b, Decidable (keyLe a b) := fun a b => by
  unfold keyLe; exact inferInstance

/-- Order used by the descending stable sort: x precedes y when the key of y
is at most the key of x. -/
def scoreGE (x y : Nat × KBEntry) : Prop := keyLe (scoreKey y) (scoreKey x)

instance scoreGE.instDec : DecidableRel scoreGE := fun x y => by
  unfold scoreGE; exact inferInstance

theorem keyLe_total (a b : Nat × Nat) : keyLe a b ∨ keyLe b a := by
  unfold keyLe; omega

theorem keyLe_trans (a b c : Nat × Nat) (h1 : keyLe a b) (h2 : keyLe b c) : keyLe a c := by
  unfold keyLe at *; omega

instance : IsTotal (Nat × KBEntry) scoreGE :=
  ⟨fun x y => (keyLe_total (scoreKey x) (scoreKey y)).symm⟩

instance : IsTrans (Nat × KBEntry) scoreGE :=
  ⟨fun _ _ _ hab hbc => keyLe_trans _ _ _ hbc hab⟩

/-- The Python list.sort is stable; sorted descending by key it coincides
with stable insertion sort under scoreGE. -/
def sortScores (l : List (Nat × KBEntry)) : List (Nat × KBEntry) :=
  List.insertionSort scoreGE l

def dfltScored : Nat × KBEntry := (0, ⟨0, ""⟩)

/-- Score of the first sorted candidate. -/
def bestScore (l : List (Nat × KBEntry)) : Nat := (l.headD dfltScored).1

/-- Score of the second sorted candidate, 0 when there is only one. -/
def secondScore (l : List (Nat × KBEntry)) : Nat :=
  if 1 < l.length then ((l.drop 1).headD dfltScored).1 else 0

/-- Dynamic cutoff max(min_score, int(best_score * 0.7)); the float product
with 0.7 is modelled by the exact floor of 7 * best / 10. -/
def kbCutoff (min_score : Nat) (l : List (Nat × KBEntry)) : Nat :=
  max min_score (bestScore l * 7 / 10)

/-- Retained candidates: those at or above the cutoff, truncated to top_k. -/
def kbSelected (top_k min_score : Nat) (l : List (Nat × KBEntry)) :
    List (Nat × KBEntry) :=
  (l.filter (fun t => decide (kbCutoff min_score l ≤ t.1))).take top_k

/-- Rendering of one context line. -/
def renderLine (e : KBEntry) : String :=
  "- Note #" ++ toString e.id ++ ": " ++ e.text

def joinLines : List String → String
  | [] => ""
  | [s] => s
  | s :: t :: rest => s ++ "\n" ++ joinLines (t :: rest)

/-- Specificity collapse: a query of at most 2 tokens whose top two sorted
scores tie at 90 or above keeps only the single best retained candidate. -/
def collapseShort (qn : String) (sorted selected : List (Nat × KBEntry)) :
    List (Nat × KBEntry) :=
  if 1 < selected.length ∧ (splitWs qn.data).length ≤ 2 then
    if 90 ≤ bestScore sorted ∧ secondScore sorted = bestScore sorted then
      [selected.headD dfltScored]
    else selected
  else selected

/-- retrieve_kb_context from src/retrieval.py, parametric in the fuzzy
metric. Default arguments in the source: top_k = 3, min_score = 35. -/
def retrieve_kb_context (fz : String → String → Nat) (entries : List KBEntry)
    (top_k min_score : Nat) (query : String) : Option String :=
  if entries = [] then none
  else if normalize_text query = "" then none
  else if kbScores fz entries (normalize_text query) = [] then none
  else if kbSelected top_k min_score
      (sortScores (kbScores fz entries (normalize_text query))) = [] then none
  else some (joinLines
    ((collapseShort (normalize_text query)
        (sortScores (kbScores fz entries (normalize_text query)))
        (kbSelected top_k min_score
          (sortScores (kbScores fz entries (normalize_text query))))).map
      (fun t => renderLine t.2)))

/-! ### Nutrition ledger (src/telegram_calorie_bot.py)

A stored line either parses to a JSON object or is malformed. The JSON
values that the aggregation reads are modelled up to the equivalence used
by the code: vnone covers absent, null and falsy non-numeric values; vnum
covers numeric values (falsy exactly when 0); vbad covers truthy values on
which Python float() raises. -/

inductive FieldVal
  | vnone
  | vnum (x : Rat)
  | vbad
deriving DecidableEq

/-- Python truthiness of a field value. -/
def truthy : FieldVal → Bool
  | FieldVal.vnone => false
  | FieldVal.vnum x => decide (x ≠ 0)
  | FieldVal.vbad => true

/-- Python or: left operand when truthy, else right operand. -/
def pyOr (a b : FieldVal) : FieldVal := if truthy a then a else b

/-- Python float(): numeric values convert, anything else raises (none). -/
def pyFloat : FieldVal → Option Rat
  | FieldVal.vnum x => some x
  | _ => none

structure FoodRecord where
  item : Option String
  total_kcal : FieldVal
  kcal : FieldVal
  protein : FieldVal
  carbs : FieldVal
  fat : FieldVal
deriving DecidableEq

inductive LedgerLine
  | parseable (r : FoodRecord)
  | malformed
deriving DecidableEq

/-- Per-line totals as computed inside the try of aggregate_today: the four
additions run in order and the first float() failure aborts the rest of the
line (the earlier additions stick, the except clause continues the loop). -/
def lineTotals (r : FoodRecord) : Rat × Rat × Rat × Rat :=
  match pyFloat (pyOr (pyOr r.total_kcal r.kcal) (FieldVal.vnum 0)) with
  | none => (0, 0, 0, 0)
  | some c =>
    match pyFloat (pyOr r.protein (FieldVal.vnum 0)) with
    | none => (c, 0, 0, 0)
    | some p =>
      match pyFloat (pyOr r.carbs (FieldVal.vnum 0)) with
      | none => (c, p, 0, 0)
      | some cb =>
        match pyFloat (pyOr r.fat (FieldVal.vnum 0)) with
        | none => (c, p, cb, 0)
        | some ft => (c, p, cb, ft)

/-- Aggregation loop of aggregate_today with 1-based physical line numbers:
a malformed line is skipped but still advances the position counter; a
parseable line is appended to the entries list before its totals are read.
Rational addition is commutative and associative, so accumulating on the
right is exact. -/
def aggAux : Nat → List LedgerLine → Rat × Rat × Rat × Rat × List (Nat × FoodRecord)
  | _, [] => (0, 0, 0, 0, [])
  | idx, LedgerLine.malformed :: rest => aggAux (idx + 1) rest
  | idx, LedgerLine.parseable r :: rest =>
    let t := lineTotals r
    let acc := aggAux (idx + 1) rest
    (t.1 + acc.1, t.2.1 + acc.2.1, t.2.2.1 + acc.2.2.1,
      t.2.2.2 + acc.2.2.2.1, (idx, r) :: acc.2.2.2.2)

/-- aggregate_today from src/telegram_calorie_bot.py on the stored line
sequence of one user and day. -/
def aggregate_today (file : List LedgerLine) :
    Rat × Rat × Rat × Rat × List (Nat × FoodRecord) :=
  aggAux 1 file

/-- Follows the words of spec claim C3: every field value that is missing or
non-numeric counts as zero. -/
def specFieldVal (v : FieldVal) : Rat := (pyFloat v).getD 0

/-- Follows the words of spec claim C3: per-line totals with missing or
non-numeric field values treated as zero, every field counted independently. -/
def specLineTotals (r : FoodRecord) : Rat × Rat × Rat × Rat :=
  (specFieldVal (pyOr (pyOr r.total_kcal r.kcal) (FieldVal.vnum 0)),
   specFieldVal (pyOr r.protein (FieldVal.vnum 0)),
   specFieldVal (pyOr r.carbs (FieldVal.vnum 0)),
   specFieldVal (pyOr r.fat (FieldVal.vnum 0)))

/-- Aggregate as described by spec claim C3. -/
def specAggAux : Nat → List LedgerLine → Rat × Rat × Rat × Rat × List (Nat × FoodRecord)
  | _, [] => (0, 0, 0, 0, [])
  | idx, LedgerLine.malformed :: rest => specAggAux (idx + 1) rest
  | idx, LedgerLine.parseable r :: rest =>
    let t := specLineTotals r
    let acc := specAggAux (idx + 1) rest
    (t.1 + acc.1, t.2.1 + acc.2.1, t.2.2.1 + acc.2.2.1,
      t.2.2.2 + acc.2.2.2.1, (idx, r) :: acc.2.2.2.2)

def specAggregate (file : List LedgerLine) :
    Rat × Rat × Rat × Rat × List (Nat × FoodRecord) :=
  specAggAux 1 file

/-- delete_user_entry_by_id from src/telegram_calorie_bot.py: missing file
or out-of-range 1-based position fails without mutation; otherwise the
addressed physical line is removed and the rest persisted. -/
def delete_user_entry_by_id (file : Option (List LedgerLine)) (entry_id : Nat) :
    Bool × Option (List LedgerLine) :=
  match file with
  | none => (false, none)
  | some lines =>
    if entry_id < 1 ∨ lines.length < entry_id then (false, some lines)
    else (true, some (lines.eraseIdx (entry_id - 1)))

/-- Reserved non-food tokens of message_handler. -/
def reserved_tokens : List String := ["", "hi", "hello", "hey"]

/-- Rejection test of message_handler: item absent, falsy, or reserved. -/
def itemRejected : Option String → Bool
  | none => true
  | some s => decide (s = "") || decide (s ∈ reserved_tokens)

/-- Persistence step of message_handler: if every parsed item is rejected
the handler returns before opening the file; otherwise the accepted items
are appended in order to the day file. -/
def persistItems (items : List FoodRecord) (file : List LedgerLine) : List LedgerLine :=
  if items.all (fun r => itemRejected r.item) then file
  else file ++ (items.filter (fun r => !itemRejected r.item)).map LedgerLine.parseable

/-! ### Helper lemmas for the store and ledger claims -/

theorem maxId_cons (d : KBEntry) (ds : List KBEntry) :
    maxId (d :: ds) = max d.id (maxId ds) := rfl

theorem le_maxId (entries : List KBEntry) (e : KBEntry) (he : e ∈ entries) :
    e.id ≤ maxId entries := by
  induction entries with
  | nil => cases he
  | cons d ds ih =>
    rcases List.mem_cons.mp he with h | h
    · subst h
      rw [maxId_cons]
      exact le_max_left _ _
    · exact le_trans (ih h) (by rw [maxId_cons]; exact le_max_right _ _)

theorem delete_in_range (lines : List LedgerLine) (p : Nat)
    (h1 : 1 ≤ p) (h2 : p ≤ lines.length) :
    delete_user_entry_by_id (some lines) p
      = (true, some (lines.take (p - 1) ++ lines.drop p)) := by
  show (if p < 1 ∨ lines.length < p then (false, some lines)
    else (true, some (lines.eraseIdx (p - 1))))
      = (true, some (lines.take (p - 1) ++ lines.drop p))
  rw [if_neg (by omega)]
  rw [List.eraseIdx_eq_take_drop_succ, Nat.sub_add_cancel h1]

theorem erase_get (lines : List LedgerLine) (p i : Nat)
    (h1 : 1 ≤ p) (h2 : p ≤ lines.length) :
    (lines.take (p - 1) ++ lines.drop p).get? i
      = if i < p - 1 then lines.get? i else lines.get? (i + 1) := by
  have hlt : (lines.take (p - 1)).length = p - 1 := by
    rw [List.length_take]; omega
  by_cases hi : i < p - 1
  · rw [if_pos hi, List.get?_eq_getElem?, List.get?_eq_getElem?,
      List.getElem?_append_left (by rw [hlt]; exact hi)]
    exact List.getElem?_take_of_lt hi
  · rw [if_neg hi, List.get?_eq_getElem?, List.get?_eq_getElem?,
      List.getElem?_append_right (by rw [hlt]; omega), hlt, List.getElem?_drop]
    congr 1
    omega

theorem aggAux_mem (file : List LedgerLine) :
    ∀ (idx p : Nat) (r : FoodRecord),
      (p, r) ∈ (aggAux idx file).2.2.2.2 →
      idx ≤ p ∧ p - idx < file.length ∧
        file.get? (p - idx) = some (LedgerLine.parseable r) := by
  induction file with
  | nil =>
    intro idx p r h
    simp [aggAux] at h
  | cons line rest ih =>
    intro idx p r h
    cases line with
    | malformed =>
      have h' := ih (idx + 1) p r (by simpa [aggAux] using h)
      obtain ⟨ha, hb, hc⟩ := h'
      refine ⟨by omega, by simp [List.length_cons]; omega, ?_⟩
      have hidx : p - idx = (p - (idx + 1)) + 1 := by omega
      rw [hidx]
      simpa using hc
    | parseable r0 =>
      simp only [aggAux] at h
      rcases List.mem_cons.mp h with h1 | h1
      · have hp : p = idx ∧ r = r0 := by
          have := Prod.mk.injEq p r idx r0 ▸ h1
          exact ⟨congrArg Prod.fst h1, congrArg Prod.snd h1⟩
        obtain ⟨hpi, hrr⟩ := hp
        subst hpi; subst hrr
        refine ⟨le_refl _, by simp, ?_⟩
        simp
      · have h' := ih (idx + 1) p r h1
        obtain ⟨ha, hb, hc⟩ := h'
        refine ⟨by omega, by simp [List.length_cons]; omega, ?_⟩
        have hidx : p - idx = (p - (idx + 1)) + 1 := by omega
        rw [hidx]
        simpa using hc

theorem pyOr_of_falsy (a b : FieldVal) (h : truthy a = false) : pyOr a b = b := by
  unfold pyOr
  rw [h]
  rfl

theorem pyOr_vnum_zero (k : Rat) :
    pyOr (FieldVal.vnum k) (FieldVal.vnum 0) = FieldVal.vnum k := by
  unfold pyOr truthy
  by_cases hk : k = 0
  · subst hk
    simp
  · simp [hk]

theorem pyOr_ne_vbad (a b : FieldVal) (ha : a ≠ FieldVal.vbad) (hb : b ≠ FieldVal.vbad) :
    pyOr a b ≠ FieldVal.vbad := by
  unfold pyOr
  split
  · exact ha
  · exact hb

theorem pyOr_zero_vnum (x : FieldVal) (hx : x ≠ FieldVal.vbad) :
    ∃ y, pyOr x (FieldVal.vnum 0) = FieldVal.vnum y := by
  cases x with
  | vnone => exact ⟨0, rfl⟩
  | vnum y =>
    by_cases hy : y = 0
    · subst hy
      exact ⟨0, rfl⟩
    · refine ⟨y, ?_⟩
      unfold pyOr truthy
      simp [hy]
  | vbad => exact absurd rfl hx

/-- Numeric-or-absent test on one field value: everything except a truthy
non-numeric value. -/
def fieldNumeric (v : FieldVal) : Bool := v != FieldVal.vbad

/-- All six aggregated fields of a record are numeric or absent. -/
def recordNumeric (r : FoodRecord) : Bool :=
  fieldNumeric r.total_kcal && fieldNumeric r.kcal && fieldNumeric r.protein &&
    fieldNumeric r.carbs && fieldNumeric r.fat

/-- Per-line numericity test on a stored line. -/
def lineNumeric : LedgerLine → Bool
  | LedgerLine.malformed => true
  | LedgerLine.parseable r => recordNumeric r

theorem lineTotals_fst (r : FoodRecord) (c : Rat)
    (h : pyFloat (pyOr (pyOr r.total_kcal r.kcal) (FieldVal.vnum 0)) = some c) :
    (lineTotals r).1 = c := by
  unfold lineTotals
  rw [h]
  cases pyFloat (pyOr r.protein (FieldVal.vnum 0)) with
  | none => rfl
  | some p =>
    cases pyFloat (pyOr r.carbs (FieldVal.vnum 0)) with
    | none => rfl
    | some cb =>
      cases pyFloat (pyOr r.fat (FieldVal.vnum 0)) with
      | none => rfl
      | some ft => rfl

theorem lineTotals_eq_spec (r : FoodRecord) (h : recordNumeric r = true) :
    lineTotals r = specLineTotals r := by
  have h' := h
  unfold recordNumeric fieldNumeric at h'
  simp only [Bool.and_eq_true, bne_iff_ne] at h'
  obtain ⟨⟨⟨⟨h1, h2⟩, h3⟩, h4⟩, h5⟩ := h'
  obtain ⟨c, hc⟩ := pyOr_zero_vnum _ (pyOr_ne_vbad _ _ h1 h2)
  obtain ⟨p, hp⟩ := pyOr_zero_vnum _ h3
  obtain ⟨cb, hcb⟩ := pyOr_zero_vnum _ h4
  obtain ⟨ft, hft⟩ := pyOr_zero_vnum _ h5
  unfold lineTotals specLineTotals specFieldVal
  rw [hc, hp, hcb, hft]
  rfl

theorem aggAux_eq_spec (file : List LedgerLine)
    (h : ∀ l ∈ file, lineNumeric l = true) :
    ∀ idx, aggAux idx file = specAggAux idx file := by
  induction file with
  | nil => intro idx; rfl
  | cons line rest ih =>
    intro idx
    have hrest := ih (fun l hl => h l (List.mem_cons_of_mem _ hl))
    cases line with
    | malformed =>
      simp only [aggAux, specAggAux]
      exact hrest (idx + 1)
    | parseable r =>
      have hr : recordNumeric r = true := h _ (List.mem_cons_self _ _)
      simp only [aggAux, specAggAux, lineTotals_eq_spec r hr, hrest (idx + 1)]

/-! ### Claim C1: knowledge-store id assignment -/

/-- C1 counterexample: starting from the empty store, add twice, delete the
entry with id 2, then add again: the final add returns id 2, which had been
assigned earlier to the now-deleted entry, so ids of deleted entries can be
reused. -/
theorem c1_counterexample :
    (add_kb_entry (add_kb_entry [] "a").2 "b").1 = 2 ∧
    (delete_kb_entry (add_kb_entry (add_kb_entry [] "a").2 "b").2 2).1 = true ∧
    (add_kb_entry
      (delete_kb_entry (add_kb_entry (add_kb_entry [] "a").2 "b").2 2).2 "c").1 = 2 := by
  decide

/-- C1 (amended): every add assigns id maxId + 1, in particular 1 on the
empty store, and adding after deleting id 3 while id 5 remains yields 6; an
id of a deleted entry is protected from reuse exactly while some entry with
an id at least as large remains in the store. -/
theorem c1_add_id_assignment (entries : List KBEntry) (text : String) (d : Nat)
    (hkeep : ∃ e ∈ (delete_kb_entry entries d).2, d ≤ e.id) :
    (add_kb_entry entries text).1 = maxId entries + 1 ∧
    (add_kb_entry [] text).1 = 1 ∧
    (add_kb_entry (delete_kb_entry entries d).2 text).1 ≠ d := by
  refine ⟨rfl, rfl, ?_⟩
  obtain ⟨e, he, hd⟩ := hkeep
  have hle : d ≤ maxId (delete_kb_entry entries d).2 :=
    le_trans hd (le_maxId _ _ he)
  show maxId (delete_kb_entry entries d).2 + 1 ≠ d
  omega

theorem c1_add_id_assignment_witness :
    (add_kb_entry (delete_kb_entry [⟨1, "x"⟩, ⟨3, "y"⟩, ⟨5, "z"⟩] 3).2 "w").1 = 6 ∧
    (add_kb_entry (delete_kb_entry [⟨1, "x"⟩, ⟨3, "y"⟩, ⟨5, "z"⟩] 3).2 "w").1 ≠ 3 :=
  ⟨by decide,
    (c1_add_id_assignment [⟨1, "x"⟩, ⟨3, "y"⟩, ⟨5, "z"⟩] "w" 3
      ⟨⟨5, "z"⟩, by decide, by decide⟩).2.2⟩

/-! ### Claim C4: cache invalidation order -/

/-- C4: in both knowledge-store mutations the cache clear is strictly
before the durable write, not after it; consequently a concurrent cached
read scheduled between the clear and the write re-caches the pre-mutation
list, and a read after the mutation completes serves that stale list. -/
theorem c4_cache_cleared_before_write :
    List.indexOf KBEvent.cacheClear add_kb_events
        < List.indexOf KBEvent.fileWrite add_kb_events ∧
    List.indexOf KBEvent.cacheClear delete_kb_events
        < List.indexOf KBEvent.fileWrite delete_kb_events ∧
    (let s0 : KBState := ⟨[⟨1, "a"⟩], none⟩
     let s1 := stepClear s0
     let s2 := (cachedRead s1).2
     let s3 := stepWrite (s1.file ++ [⟨maxId s1.file + 1, "b"⟩]) s2
     (cachedRead s3).1 = [⟨1, "a"⟩] ∧ (cachedRead s3).1 ≠ s3.file) := by
  decide

/-! ### Claim C3: aggregation semantics -/

def badRecord : FoodRecord :=
  ⟨some "x", FieldVal.vbad, FieldVal.vnone, FieldVal.vnum 5, FieldVal.vnone, FieldVal.vnone⟩

/-- C3 counterexample: a parseable line whose total_kcal value is a truthy
non-numeric value and whose protein is 5 contributes protein 0 in the code,
because the float failure on the calorie field aborts the remaining
additions of that line, while treating the non-numeric value as zero would
contribute protein 5. -/
theorem c3_counterexample :
    (aggregate_today [LedgerLine.parseable badRecord]).2.1 = 0 ∧
    (specAggregate [LedgerLine.parseable badRecord]).2.1 = 5 ∧
    aggregate_today [LedgerLine.parseable badRecord]
      ≠ specAggregate [LedgerLine.parseable badRecord] := by
  have ha : (aggregate_today [LedgerLine.parseable badRecord]).2.1 = 0 := by
    norm_num [aggregate_today, aggAux, lineTotals, badRecord, pyOr, truthy, pyFloat]
  have hb : (specAggregate [LedgerLine.parseable badRecord]).2.1 = 5 := by
    norm_num [specAggregate, specAggAux, specLineTotals, specFieldVal, badRecord,
      pyOr, truthy, pyFloat]
  refine ⟨ha, hb, fun hEq => ?_⟩
  have h2 := congrArg (fun t => t.2.1) hEq
  simp only at h2
  rw [ha, hb] at h2
  norm_num at h2

/-- C3 (amended): aggregate returns the totals of the claim, summing field
values with missing ones treated as zero, together with the ordered
position-record list, and parse failures are skipped without aborting,
provided no stored field value is a truthy non-numeric value; such a value
instead aborts the remaining field additions of its own line only. -/
theorem c3_aggregate_matches_spec (file : List LedgerLine)
    (h : ∀ l ∈ file, lineNumeric l = true) :
    aggregate_today file = specAggregate file := by
  unfold aggregate_today specAggregate
  exact aggAux_eq_spec file h 1

def eggRecord : FoodRecord :=
  ⟨some "egg", FieldVal.vnum 160, FieldVal.vnone, FieldVal.vnum 12,
    FieldVal.vnum 1, FieldVal.vnum 10⟩

theorem c3_aggregate_matches_spec_witness :
    aggregate_today [LedgerLine.malformed, LedgerLine.parseable eggRecord]
      = specAggregate [LedgerLine.malformed, LedgerLine.parseable eggRecord] ∧
    (aggregate_today [LedgerLine.malformed, LedgerLine.parseable eggRecord]).1 = 160 ∧
    (aggregate_today [LedgerLine.malformed, LedgerLine.parseable eggRecord]).2.2.2.2
      = [(2, eggRecord)] :=
  ⟨c3_aggregate_matches_spec _ (by decide),
    by norm_num [aggregate_today, aggAux, lineTotals, eggRecord, pyOr, truthy, pyFloat],
    by simp [aggregate_today, aggAux]⟩

/-! ### Claim C9: kcal fallback -/

/-- C9: whenever total_kcal is Python-falsy (absent, null or 0) and kcal is
a number k, the line contributes exactly k calories, both per line and
through aggregate_today. -/
theorem c9_kcal_fallback (r : FoodRecord) (k : Rat)
    (h1 : truthy r.total_kcal = false) (h2 : r.kcal = FieldVal.vnum k) :
    (lineTotals r).1 = k ∧
    (aggregate_today [LedgerLine.parseable r]).1 = k := by
  have hor : pyOr (pyOr r.total_kcal r.kcal) (FieldVal.vnum 0) = FieldVal.vnum k := by
    rw [pyOr_of_falsy _ _ h1, h2, pyOr_vnum_zero]
  have hfst : (lineTotals r).1 = k := lineTotals_fst r k (by rw [hor]; rfl)
  refine ⟨hfst, ?_⟩
  show (lineTotals r).1 + (0 : Rat) = k
  rw [hfst, add_zero]

def zeroKcalRecord : FoodRecord :=
  ⟨some "bar", FieldVal.vnum 0, FieldVal.vnum 50, FieldVal.vnone,
    FieldVal.vnone, FieldVal.vnone⟩

theorem c9_kcal_fallback_witness :
    (lineTotals zeroKcalRecord).1 = 50 ∧
    (aggregate_today [LedgerLine.parseable zeroKcalRecord]).1 = 50 :=
  c9_kcal_fallback zeroKcalRecord 50 (by decide) rfl

/-! ### Claim C6: delete_line range and shifting -/

/-- C6: delete_line returns false and leaves the stored sequence unchanged
for every position outside [1, n], including 0 and n + 1; for a position
inside the range it returns true, removes exactly the p-th physical line,
and every later position shifts down by one. -/
theorem c6_delete_line (lines : List LedgerLine) (p : Nat) :
    ((p < 1 ∨ lines.length < p) →
      delete_user_entry_by_id (some lines) p = (false, some lines)) ∧
    (1 ≤ p → p ≤ lines.length →
      delete_user_entry_by_id (some lines) p
          = (true, some (lines.take (p - 1) ++ lines.drop p)) ∧
      (∀ i, (lines.take (p - 1) ++ lines.drop p).get? i
          = if i < p - 1 then lines.get? i else lines.get? (i + 1))) := by
  constructor
  · intro h
    show (if p < 1 ∨ lines.length < p then (false, some lines)
      else (true, some (lines.eraseIdx (p - 1)))) = (false, some lines)
    rw [if_pos h]
  · intro h1 h2
    exact ⟨delete_in_range lines p h1 h2, fun i => erase_get lines p i h1 h2⟩

def lineA : LedgerLine := LedgerLine.parseable
  ⟨some "a", FieldVal.vnone, FieldVal.vnone, FieldVal.vnone, FieldVal.vnone, FieldVal.vnone⟩

def lineB : LedgerLine := LedgerLine.parseable
  ⟨some "b", FieldVal.vnone, FieldVal.vnone, FieldVal.vnone, FieldVal.vnone, FieldVal.vnone⟩

def lineC : LedgerLine := LedgerLine.parseable
  ⟨some "c", FieldVal.vnone, FieldVal.vnone, FieldVal.vnone, FieldVal.vnone, FieldVal.vnone⟩

theorem c6_delete_line_witness :
    delete_user_entry_by_id (some [lineA, lineB, lineC]) 0
      = (false, some [lineA, lineB, lineC]) ∧
    delete_user_entry_by_id (some [lineA, lineB, lineC]) 4
      = (false, some [lineA, lineB, lineC]) ∧
    delete_user_entry_by_id (some [lineA, lineB, lineC]) 2
      = (true, some [lineA, lineC]) := by
  refine ⟨(c6_delete_line [lineA, lineB, lineC] 0).1 (Or.inl (by omega)),
    (c6_delete_line [lineA, lineB, lineC] 4).1 (Or.inr (by decide)),
    (((c6_delete_line [lineA, lineB, lineC] 2).2 (by omega) (by decide)).1).trans ?_⟩
  rfl

/-! ### Claim C7: reserved-item rejection -/

/-- C7: a food-item record whose item is absent, empty or one of the
reserved tokens is never persisted: alone it leaves the file untouched and
the aggregate unchanged, and in a batch it is filtered out. -/
theorem c7_reserved_item_rejected (r : FoodRecord) (items : List FoodRecord)
    (file : List LedgerLine) (h : itemRejected r.item = true) :
    persistItems [r] file = file ∧
    aggregate_today (persistItems [r] file) = aggregate_today file ∧
    persistItems (r :: items) file = persistItems items file := by
  have h1 : persistItems [r] file = file := by
    unfold persistItems
    have hc : ([r].all fun x => itemRejected x.item) = true := by simp [h]
    rw [if_pos hc]
  refine ⟨h1, by rw [h1], ?_⟩
  unfold persistItems
  have hcons : ((r :: items).all fun x => itemRejected x.item)
      = (items.all fun x => itemRejected x.item) := by
    simp [List.all_cons, h]
  rw [hcons, List.filter_cons_of_neg (by simp [h])]

def hiRecord : FoodRecord :=
  ⟨some "hi", FieldVal.vnone, FieldVal.vnone, FieldVal.vnone, FieldVal.vnone, FieldVal.vnone⟩

theorem c7_reserved_item_rejected_witness :
    itemRejected hiRecord.item = true ∧
    persistItems [hiRecord] [] = [] ∧
    aggregate_today (persistItems [hiRecord] []) = (0, 0, 0, 0, []) := by
  have h := c7_reserved_item_rejected hiRecord [] [] (by decide)
  exact ⟨by decide, h.1, by rw [h.1]; rfl⟩

/-! ### Claim C8: normalizer idempotence -/

/-- C8: normalize_text is a total function and is idempotent on every
string. -/
theorem c8_normalize_idempotent (s : String) :
    normalize_text (normalize_text s) = normalize_text s :=
  normalize_text_idem s

/-! ### Claim C10: aggregate positions address physical lines -/

/-- C10: every position-record pair reported by aggregate points at the
physical line of the stored sequence with that 1-based index, that line
parses to the reported record even when unparseable lines precede it, the
position is within delete range, and delete_line at that position removes
exactly that physical line. -/
theorem c10_positions_agree (file : List LedgerLine) (p : Nat) (r : FoodRecord)
    (h : (p, r) ∈ (aggregate_today file).2.2.2.2) :
    file.get? (p - 1) = some (LedgerLine.parseable r) ∧
    1 ≤ p ∧ p ≤ file.length ∧
    delete_user_entry_by_id (some file) p
      = (true, some (file.take (p - 1) ++ file.drop p)) := by
  obtain ⟨h1, h2, h3⟩ := aggAux_mem file 1 p r h
  exact ⟨h3, h1, by omega, delete_in_range file p h1 (by omega)⟩

def recX : FoodRecord :=
  ⟨some "oat", FieldVal.vnum 100, FieldVal.vnone, FieldVal.vnone,
    FieldVal.vnone, FieldVal.vnone⟩

theorem c10_positions_agree_witness :
    [LedgerLine.malformed, LedgerLine.parseable recX, lineA].get? 1
      = some (LedgerLine.parseable recX) ∧
    delete_user_entry_by_id (some [LedgerLine.malformed, LedgerLine.parseable recX, lineA]) 2
      = (true, some [LedgerLine.malformed, lineA]) := by
  have h := c10_positions_agree [LedgerLine.malformed, LedgerLine.parseable recX, lineA]
    2 recX (by decide)
  exact ⟨h.1, h.2.2.2.trans (by rfl)⟩

/-! ### Helper lemmas for the retrieval claims -/

theorem retrieve_eq (fz : String → String → Nat) (entries : List KBEntry)
    (top_k min_score : Nat) (query : String)
    (h1 : entries ≠ []) (h2 : normalize_text query ≠ "")
    (h3 : kbScores fz entries (normalize_text query) ≠ [])
    (h4 : kbSelected top_k min_score
      (sortScores (kbScores fz entries (normalize_text query))) ≠ []) :
    retrieve_kb_context fz entries top_k min_score query
      = some (joinLines
        ((collapseShort (normalize_text query)
            (sortScores (kbScores fz entries (normalize_text query)))
            (kbSelected top_k min_score
              (sortScores (kbScores fz entries (normalize_text query))))).map
          (fun t => renderLine t.2))) := by
  unfold retrieve_kb_context
  rw [if_neg h1, if_neg h2, if_neg h3, if_neg h4]

theorem keyLe_refl (a : Nat × Nat) : keyLe a a := by
  unfold keyLe; omega

theorem keyLe_fst (a b : Nat × Nat) (h : keyLe a b) : a.1 ≤ b.1 := by
  unfold keyLe at h; omega

theorem sorted_le_best (l : List (Nat × KBEntry)) (hs : l.Sorted scoreGE) :
    ∀ t ∈ l, t.1 ≤ bestScore l := by
  cases l with
  | nil => intro t ht; cases ht
  | cons a as =>
    intro t ht
    rcases List.mem_cons.mp ht with h | h
    · subst h; exact le_refl _
    · exact keyLe_fst _ _ (List.rel_of_sorted_cons hs t h)

theorem sorted_key_le_head (l : List (Nat × KBEntry)) (hs : l.Sorted scoreGE) :
    ∀ t ∈ l, keyLe (scoreKey t) (scoreKey (l.headD dfltScored)) := by
  cases l with
  | nil => intro t ht; cases ht
  | cons a as =>
    intro t ht
    rcases List.mem_cons.mp ht with h | h
    · subst h; exact keyLe_refl _
    · exact List.rel_of_sorted_cons hs t h

theorem splitWsGo_ne_nil (l : List Char) :
    ∀ cur : List Char, ((∃ c ∈ l, c ≠ ' ') ∨ cur ≠ []) → splitWsGo cur l ≠ [] := by
  induction l with
  | nil =>
    intro cur h
    rcases h with h | h
    · obtain ⟨c, hc, _⟩ := h
      cases hc
    · have hcur : cur.isEmpty = false := by
        cases cur with
        | nil => exact absurd rfl h
        | cons x xs => rfl
      simp [splitWsGo, hcur]
  | cons c cs ih =>
    intro cur h
    show (if c = ' ' then (if cur.isEmpty then splitWsGo [] cs
        else cur.reverse :: splitWsGo [] cs) else splitWsGo (c :: cur) cs) ≠ []
    by_cases hc : c = ' '
    · rw [if_pos hc]
      cases cur with
      | nil =>
        show splitWsGo [] cs ≠ []
        apply ih []
        left
        rcases h with h | h
        · obtain ⟨d, hd, hd'⟩ := h
          rcases List.mem_cons.mp hd with h1 | h1
          · subst h1; exact absurd hc hd'
          · exact ⟨d, h1, hd'⟩
        · exact absurd rfl h
      | cons x xs =>
        show (x :: xs).reverse :: splitWsGo [] cs ≠ []
        exact List.cons_ne_nil _ _
    · rw [if_neg hc]
      exact ih (c :: cur) (Or.inr (List.cons_ne_nil _ _))

theorem splitWs_ne_nil (l : List Char) (h : ∃ c ∈ l, c ≠ ' ') : splitWs l ≠ [] := by
  unfold splitWs
  intro hmap
  exact splitWsGo_ne_nil l [] (Or.inl h) (List.map_eq_nil_iff.mp hmap)

theorem string_eq_empty (s : String) (h : s.data = []) : s = "" := by
  cases s with
  | mk l =>
    simp at h
    rw [h]

theorem tokenSet_ne_nil (q : String) (h : normalize_text q ≠ "") :
    tokenSet (normalize_text q) ≠ [] := by
  unfold tokenSet
  intro hd
  have hsplit : splitWs (normalize_text q).data = [] := (List.dedup_eq_nil _).mp hd
  refine splitWs_ne_nil (normalize_text q).data ?_ hsplit
  cases hl : (normalize_text q).data with
  | nil => exact absurd (string_eq_empty _ hl) h
  | cons c cs =>
    refine ⟨c, List.mem_cons_self _ _, ?_⟩
    have hh : headFails isPyWs (normalize_text q).data = true :=
      headFails_dropTrail _ _ _ (headFails_dropWhile _ _)
    rw [hl] at hh
    simp [headFails] at hh
    intro hcsp
    subst hcsp
    rw [space_is_ws] at hh
    cases hh

theorem overlapCount_self (s : String) : overlapCount s s = (tokenSet s).length := by
  unfold overlapCount
  congr 1
  rw [List.filter_eq_self]
  intro a ha
  exact decide_eq_true ha

theorem scoreEntry_self (fz : String → String → Nat) (hrefl : ∀ a, fz a a = 100)
    (qn : String) :
    scoreEntry fz qn qn = 100 + min ((tokenSet qn).length * 5) 15 := by
  unfold scoreEntry
  rw [hrefl, overlapCount_self]

theorem scoreEntry_le115 (fz : String → String → Nat)
    (hrange : ∀ a b, fz a b ≤ 100) (qn nn : String) :
    scoreEntry fz qn nn ≤ 115 := by
  unfold scoreEntry
  have h1 := hrange qn nn
  have h2 : min (overlapCount qn nn * 5) 15 ≤ 15 := min_le_right _ _
  omega

theorem scoreEntry_ge105 (fz : String → String → Nat) (hrefl : ∀ a, fz a a = 100)
    (qn : String) (h : tokenSet qn ≠ []) :
    105 ≤ scoreEntry fz qn qn := by
  rw [scoreEntry_self fz hrefl]
  have h1 : 1 ≤ (tokenSet qn).length := by
    cases hts : tokenSet qn with
    | nil => exact absurd hts h
    | cons x xs => simp
  have h2 : 5 ≤ min ((tokenSet qn).length * 5) 15 := le_min (by omega) (by norm_num)
  omega

theorem kbScores_le115 (fz : String → String → Nat) (hrange : ∀ a b, fz a b ≤ 100)
    (entries : List KBEntry) (qn : String) :
    ∀ t ∈ kbScores fz entries qn, t.1 ≤ 115 := by
  intro t ht
  unfold kbScores at ht
  rw [List.mem_filterMap] at ht
  obtain ⟨e, _, he⟩ := ht
  by_cases hnn : normalize_text (kbName e) = ""
  · rw [if_pos hnn] at he; cases he
  · rw [if_neg hnn] at he
    have ht2 := Option.some_inj.mp he
    have h1 : t.1 = scoreEntry fz qn (normalize_text (kbName e)) := by
      rw [← ht2]
    rw [h1]
    exact scoreEntry_le115 fz hrange _ _

theorem bestScore_sorted_le115 (fz : String → String → Nat)
    (hrange : ∀ a b, fz a b ≤ 100) (entries : List KBEntry) (qn : String) :
    bestScore (sortScores (kbScores fz entries qn)) ≤ 115 := by
  cases hs : sortScores (kbScores fz entries qn) with
  | nil => show dfltScored.1 ≤ 115; norm_num [dfltScored]
  | cons a as =>
    show a.1 ≤ 115
    apply kbScores_le115 fz hrange entries qn
    have ha : a ∈ sortScores (kbScores fz entries qn) := by
      rw [hs]; exact List.mem_cons_self _ _
    exact (List.mem_insertionSort _).mp ha

theorem kbCutoff_le105 (min_score : Nat) (l : List (Nat × KBEntry))
    (hb : bestScore l ≤ 115) (hms : min_score ≤ 105) :
    kbCutoff min_score l ≤ 105 := by
  unfold kbCutoff
  have h1 : bestScore l * 7 / 10 ≤ 115 * 7 / 10 := Nat.div_le_div_right (by omega)
  have h2 : 115 * 7 / 10 = 80 := by norm_num
  omega

/-! ### Claim C2: exact-name match score and retention -/

/-- A fuzzy metric scoring 100 exactly on identical strings, used to
instantiate the external rapidfuzz parameter. -/
def fzEq (a b : String) : Nat := if a = b then 100 else 0

/-- C2 counterexample: for a knowledge base with the single note egg and
the query egg, under a fuzzy metric that scores identical strings 100 the
entry's computed score is 105, not 100, because the token-overlap bonus is
added on top; and with min_score 200 the retrieval returns nothing, so the
entry is not retained regardless of min_score. -/
theorem c2_counterexample :
    kbScores fzEq [⟨1, "egg"⟩] (normalize_text "egg") = [(105, ⟨1, "egg"⟩)] ∧
    (105 : Nat) ≠ 100 ∧
    retrieve_kb_context fzEq [⟨1, "egg"⟩] 3 200 "egg" = none := by
  decide

/-- C2 (amended): for every entry whose normalized derived name equals the
normalized (nonempty) query, and every fuzzy metric in range 0..100 that
scores identical strings 100, the computed score is 100 plus the overlap
bonus min(5 t, 15) over the t distinct query tokens, hence at least 105;
the entry meets the dynamic cutoff of any knowledge base whenever
min_score is at most 105; and for the knowledge base containing exactly
that entry, retrieval returns its rendered note line whenever min_score
is at most 105 and top_k is at least 1. -/
theorem c2_exact_name_match (fz : String → String → Nat)
    (hrange : ∀ a b, fz a b ≤ 100) (hrefl : ∀ a, fz a a = 100)
    (e : KBEntry) (query : String)
    (hname : normalize_text (kbName e) = normalize_text query)
    (hne : normalize_text query ≠ "")
    (entries : List KBEntry) (top_k min_score : Nat)
    (hms : min_score ≤ 105) (htk : 1 ≤ top_k) :
    scoreEntry fz (normalize_text query) (normalize_text (kbName e))
        = 100 + min ((tokenSet (normalize_text query)).length * 5) 15 ∧
    105 ≤ scoreEntry fz (normalize_text query) (normalize_text (kbName e)) ∧
    kbCutoff min_score (sortScores (kbScores fz entries (normalize_text query)))
        ≤ scoreEntry fz (normalize_text query) (normalize_text (kbName e)) ∧
    retrieve_kb_context fz [e] top_k min_score query = some (renderLine e) := by
  rw [hname]
  have hts := tokenSet_ne_nil query hne
  have hform := scoreEntry_self fz hrefl (normalize_text query)
  have h105 := scoreEntry_ge105 fz hrefl (normalize_text query) hts
  have hcut : kbCutoff min_score (sortScores (kbScores fz entries (normalize_text query)))
      ≤ scoreEntry fz (normalize_text query) (normalize_text query) :=
    le_trans (kbCutoff_le105 _ _ (bestScore_sorted_le115 fz hrange entries _) hms) h105
  refine ⟨hform, h105, hcut, ?_⟩
  have hfe : (if normalize_text (kbName e) = "" then none
      else some (scoreEntry fz (normalize_text query) (normalize_text (kbName e)), e))
        = some (scoreEntry fz (normalize_text query) (normalize_text query), e) := by
    rw [hname, if_neg hne]
  have hscores : kbScores fz [e] (normalize_text query)
      = [(scoreEntry fz (normalize_text query) (normalize_text query), e)] := by
    unfold kbScores
    simp only [List.filterMap_cons, List.filterMap_nil, hname, if_neg hne]
  have hsorted : sortScores (kbScores fz [e] (normalize_text query))
      = [(scoreEntry fz (normalize_text query) (normalize_text query), e)] := by
    rw [hscores]; rfl
  have hcut1 : kbCutoff min_score (sortScores (kbScores fz [e] (normalize_text query)))
      ≤ scoreEntry fz (normalize_text query) (normalize_text query) :=
    le_trans (kbCutoff_le105 _ _ (bestScore_sorted_le115 fz hrange [e] _) hms) h105
  have hfilter : (sortScores (kbScores fz [e] (normalize_text query))).filter
      (fun t => decide (kbCutoff min_score
        (sortScores (kbScores fz [e] (normalize_text query))) ≤ t.1))
      = [(scoreEntry fz (normalize_text query) (normalize_text query), e)] := by
    rw [hsorted]
    rw [List.filter_cons_of_pos]
    · rfl
    · exact decide_eq_true (by rw [hsorted] at hcut1; exact hcut1)
  have hsel : kbSelected top_k min_score (sortScores (kbScores fz [e] (normalize_text query)))
      = [(scoreEntry fz (normalize_text query) (normalize_text query), e)] := by
    unfold kbSelected
    rw [hfilter]
    cases top_k with
    | zero => omega
    | succ n => rw [List.take_succ_cons, List.take_nil]
  have hret := retrieve_eq fz [e] top_k min_score query (by simp) hne
    (by rw [hscores]; exact List.cons_ne_nil _ _)
    (by rw [hsel]; exact List.cons_ne_nil _ _)
  rw [hret, hsel]
  have hcoll : collapseShort (normalize_text query)
      (sortScores (kbScores fz [e] (normalize_text query)))
      [(scoreEntry fz (normalize_text query) (normalize_text query), e)]
      = [(scoreEntry fz (normalize_text query) (normalize_text query), e)] := by
    have hnc : ¬(1 < ([(scoreEntry fz (normalize_text query) (normalize_text query), e)] :
        List (Nat × KBEntry)).length ∧
        (splitWs (normalize_text query).data).length ≤ 2) := by
      intro hcontra
      simp at hcontra
    unfold collapseShort
    rw [if_neg hnc]
  rw [hcoll]
  rfl

theorem c2_exact_name_match_witness :
    retrieve_kb_context fzEq [⟨1, "egg"⟩] 3 35 "egg" = some "- Note #1: egg" ∧
    scoreEntry fzEq (normalize_text "egg") (normalize_text (kbName ⟨1, "egg"⟩)) = 105 := by
  have h := c2_exact_name_match fzEq
    (fun a b => by unfold fzEq; split <;> omega)
    (fun a => by unfold fzEq; rw [if_pos rfl])
    ⟨1, "egg"⟩ "egg" (by decide) (by decide) [⟨1, "egg"⟩] 3 35 (by omega) (by omega)
  refine ⟨h.2.2.2.trans (by decide), ?_⟩
  rw [h.1]
  decide

/-! ### Claim C5: short-query specificity collapse -/

/-- C5: whenever the normalized query has at most 2 tokens and at least two
retained candidates tie at the retained top score, that score being at
least 90, retrieval returns only the single best candidate, and that
candidate is maximal among all scored candidates in the lexicographic
(score, raw-name-length) order, so score ties resolve toward the longer
raw name. -/
theorem c5_short_query_collapse (fz : String → String → Nat)
    (entries : List KBEntry) (top_k min_score : Nat) (query : String)
    (qn : String) (sorted selected : List (Nat × KBEntry))
    (hqn : qn = normalize_text query)
    (hsorted : sorted = sortScores (kbScores fz entries qn))
    (hsel : selected = kbSelected top_k min_score sorted)
    (hentries : entries ≠ []) (hqne : qn ≠ "")
    (hwords : (splitWs qn.data).length ≤ 2)
    (hlen : 1 < selected.length)
    (htie : ((selected.drop 1).headD dfltScored).1 = (selected.headD dfltScored).1)
    (htop : 90 ≤ (selected.headD dfltScored).1) :
    retrieve_kb_context fz entries top_k min_score query
      = some (renderLine ((selected.headD dfltScored).2)) ∧
    ∀ t ∈ sorted, keyLe (scoreKey t) (scoreKey (selected.headD dfltScored)) := by
  subst hqn
  have hSortedRel : sorted.Sorted scoreGE := by
    rw [hsorted]; exact List.sorted_insertionSort scoreGE _
  set qn := normalize_text query with hqndef
  set C := kbCutoff min_score sorted with hC
  set F := sorted.filter (fun t => decide (C ≤ t.1)) with hF
  have hselF : selected = F.take top_k := by
    rw [hsel]
    unfold kbSelected
    rw [← hC, ← hF]
  have hlenF : 1 < F.length ∧ 1 < top_k := by
    have hx := hlen
    rw [hselF, List.length_take] at hx
    omega
  have hFne : F ≠ [] := by
    intro hc
    rw [hc] at hlenF
    simp at hlenF
  have hsortedne : sorted ≠ [] := by
    intro hc
    apply hFne
    rw [hF, hc]
    rfl
  obtain ⟨a, as, hcons⟩ := List.exists_cons_of_ne_nil hsortedne
  have hpassa : C ≤ a.1 := by
    obtain ⟨t0, ht0⟩ := List.exists_mem_of_length_pos (by omega : 0 < F.length)
    have ht0' := List.mem_filter.mp (hF ▸ ht0)
    have h1 : C ≤ t0.1 := of_decide_eq_true ht0'.2
    have h2 : t0.1 ≤ bestScore sorted := sorted_le_best sorted hSortedRel t0 ht0'.1
    have h3 : bestScore sorted = a.1 := by rw [hcons]; rfl
    omega
  have hFcons : F = a :: (as.filter (fun t => decide (C ≤ t.1))) := by
    rw [hF, hcons]
    exact List.filter_cons_of_pos (decide_eq_true hpassa)
  obtain ⟨n, hn⟩ : ∃ n, top_k = n + 1 := ⟨top_k - 1, by omega⟩
  have hselcons : selected = a :: (as.filter (fun t => decide (C ≤ t.1))).take n := by
    rw [hselF, hFcons, hn, List.take_succ_cons]
  have htailne : (as.filter (fun t => decide (C ≤ t.1))).take n ≠ [] := by
    intro hc
    rw [hselcons, hc] at hlen
    simp at hlen
  obtain ⟨x, xs, hxcons⟩ := List.exists_cons_of_ne_nil htailne
  have hxmem : x ∈ as := by
    have h1 : x ∈ (as.filter (fun t => decide (C ≤ t.1))).take n := by
      rw [hxcons]; exact List.mem_cons_self _ _
    exact List.mem_of_mem_filter (List.take_subset _ _ h1)
  have hheadsel : selected.headD dfltScored = a := by
    rw [hselcons]; rfl
  have hxa : x.1 = a.1 := by
    have h1 : ((selected.drop 1).headD dfltScored) = x := by
      rw [hselcons, hxcons]
      rfl
    rw [h1, hheadsel] at htie
    exact htie
  have htopa : 90 ≤ a.1 := by rw [hheadsel] at htop; exact htop
  have hasne : as ≠ [] := by
    intro hc
    rw [hc] at hxmem
    cases hxmem
  obtain ⟨b, bs, hbs⟩ := List.exists_cons_of_ne_nil hasne
  have hsorted2 : sorted = a :: b :: bs := by rw [hcons, hbs]
  have hSortedTail : (b :: bs).Sorted scoreGE := by
    rw [hsorted2] at hSortedRel
    exact hSortedRel.of_cons
  have hxb : x.1 ≤ b.1 := by
    have h1 : x ∈ b :: bs := by rw [← hbs]; exact hxmem
    exact sorted_le_best (b :: bs) hSortedTail x h1
  have hba : b.1 ≤ a.1 := by
    have h1 : b ∈ a :: b :: bs := List.mem_cons_of_mem _ (List.mem_cons_self _ _)
    exact sorted_le_best (a :: b :: bs) (hsorted2 ▸ hSortedRel) b h1
  have hbtie : b.1 = a.1 := by omega
  have hbest : bestScore sorted = a.1 := by rw [hsorted2]; rfl
  have hsecond : secondScore sorted = b.1 := by
    rw [hsorted2]
    unfold secondScore
    rw [if_pos (by simp only [List.length_cons]; omega)]
    rfl
  have hcoll : collapseShort qn sorted selected = [selected.headD dfltScored] := by
    have hcond : 90 ≤ bestScore sorted ∧ secondScore sorted = bestScore sorted := by
      rw [hbest, hsecond]
      omega
    unfold collapseShort
    rw [if_pos ⟨hlen, hwords⟩, if_pos hcond]
  have hscoresne : kbScores fz entries qn ≠ [] := by
    intro hc
    apply hsortedne
    rw [hsorted, hc]
    rfl
  have hselne : selected ≠ [] := by
    intro hc
    rw [hc] at hlen
    simp at hlen
  have hret := retrieve_eq fz entries top_k min_score query hentries hqne
    (by rw [← hqndef]; exact hscoresne)
    (by rw [← hqndef, ← hsorted, ← hsel]; exact hselne)
  constructor
  · rw [hret, ← hqndef, ← hsorted, ← hsel, hcoll]
    rfl
  · intro t ht
    have h1 := sorted_key_le_head sorted hSortedRel t ht
    have h2 : sorted.headD dfltScored = a := by rw [hsorted2]; rfl
    rw [h2] at h1
    rw [hheadsel]
    exact h1

def pbEntry : KBEntry := ⟨1, "protein bar"⟩

def pbdEntry : KBEntry := ⟨2, "protein bar deluxe"⟩

/-- Constant fuzzy metric used to realize the tie of the spec example. -/
def fz90 (_ _ : String) : Nat := 90

theorem c5_short_query_collapse_witness :
    retrieve_kb_context fz90 [pbEntry, pbdEntry] 3 35 "bar"
      = some "- Note #2: protein bar deluxe" := by
  have h := c5_short_query_collapse fz90 [pbEntry, pbdEntry] 3 35 "bar"
    (normalize_text "bar")
    (sortScores (kbScores fz90 [pbEntry, pbdEntry] (normalize_text "bar")))
    (kbSelected 3 35 (sortScores (kbScores fz90 [pbEntry, pbdEntry] (normalize_text "bar"))))
    rfl rfl rfl (by decide) (by decide) (by decide) (by decide) (by decide) (by decide)
  exact h.1.trans (by decide)

end CalAi
